import Mathlib

/-!
Verification of the node-xml-parser library (src/index.ts, src/util.ts).

Modelling conventions:
* A JS string is a `List Char`; the parser's mutable pair (xml, i) is
  modelled by the still-unread suffix of the input, so `this.i++` is a tail
  and `peekChars(0, k)` is `List.take k`.
* A thrown JS `Error` is an `Except.error` carrying a `PErr` constructor,
  one per throw site.  Calling a method on `undefined` (when `lastNode()`
  is invoked with an empty stack) raises a JS `TypeError`; that outcome is
  the constructor `PErr.typeError`.
* The mutable open-node stack `this.nodes` is a `List XMLNode` whose head
  is the innermost open node (the JS array's last element).  In JS,
  `addNode` stores the new node both in the parent's `children` array and
  on the stack, sharing one object reference that keeps being mutated.  In
  the pure model a node is attached to its parent when it is popped
  instead; this produces the same final tree, because a popped node is
  never mutated again and the events that extend a node's child list never
  interleave with those of its siblings.
* The top-level `while (true)` loops of `parse` and `matchAttributes` get
  a fuel parameter plus a distinguished error `PErr.fuelExhausted`; every
  other loop of the source recurses structurally on the remaining input.
  The theorem for claim C8 shows `fuelExhausted` never escapes, i.e. the
  scan really is bounded by the input length.
-/

/-- util.ts: `whitespace`. -/
def whitespace : List Char := [' ', '\t', '\n', '\r']

/-- util.ts: `isWhitespace`. -/
def isWhitespace (c : Char) : Bool := whitespace.contains c

/-- The single-quote character (written `'\x27'` in the TS source). -/
def squote : Char := Char.ofNat 39

/-- One constructor per `throw` site of index.ts (see module comment). -/
inductive PErr where
  | eof
  | unexpectedChar (found : Char) (expected : List Char)
  | unexpectedClosingTag
  | mismatchedClosingTag (found expected : String)
  | typeError
  | fuelExhausted
deriving DecidableEq, Repr

/-- index.ts: class `XMLNode`.  The JS `Map<string, string>` of attributes
is an insertion-ordered association list. -/
inductive XMLNode where
  | mk (tag : String) (attributes : List (String × String)) (children : List XMLNode)

/-- Field accessor for `XMLNode.tag`. -/
def XMLNode.tag : XMLNode → String
  | .mk t _ _ => t

/-- Field accessor for `XMLNode.attributes`. -/
def XMLNode.attributes : XMLNode → List (String × String)
  | .mk _ a _ => a

/-- Field accessor for `XMLNode.children`. -/
def XMLNode.children : XMLNode → List XMLNode
  | .mk _ _ c => c

/-- index.ts: the `@text` node created by `appendText` / the `XMLNode`
constructor for raw-string children. -/
def textNode (text : String) : XMLNode := .mk "@text" [("data", text)] []

/-- index.ts: `XMLParser.getChar` — consume one character, EOF if none. -/
def getChar : List Char → Except PErr (Char × List Char)
  | [] => .error .eof
  | c :: rest => .ok (c, rest)

/-- index.ts: `XMLParser.matchUntilChar` — accumulate characters until one
of `stops` is found (left unconsumed); EOF if the input runs out first. -/
def matchUntilChar (stops : List Char) : List Char → Except PErr (List Char × List Char)
  | [] => .error .eof
  | c :: rest =>
    if stops.contains c then .ok ([], c :: rest)
    else
      match matchUntilChar stops rest with
      | .error e => .error e
      | .ok (s, r) => .ok (c :: s, r)

/-- `pat.isPrefixOf l` written out for `Char` lists. -/
def listStartsWith : List Char → List Char → Bool
  | [], _ => true
  | _ :: _, [] => false
  | p :: ps, c :: cs => p == c && listStartsWith ps cs

/-- `String.prototype.indexOf` as a splitter: the part before the first
occurrence of `pat`, and the part after that occurrence. -/
def splitAtSub (pat : List Char) : List Char → Option (List Char × List Char)
  | [] => if listStartsWith pat [] then some ([], []) else none
  | c :: rest =>
    if listStartsWith pat (c :: rest) then some ([], (c :: rest).drop pat.length)
    else
      match splitAtSub pat rest with
      | some (a, b) => some (c :: a, b)
      | none => none

/-- index.ts: `XMLParser.matchUntilString` — everything before the first
occurrence of `pat` (consuming the occurrence), EOF if it never occurs. -/
def matchUntilString (pat : List Char) (input : List Char) : Except PErr (List Char × List Char) :=
  match splitAtSub pat input with
  | none => .error .eof
  | some (found, rest) => .ok (found, rest)

/-- index.ts: `XMLParser.matchCommentEnd` — `getChar` until the consumed
character is `-` and the next two are `->`, then skip those two. -/
def matchCommentEnd : List Char → Except PErr (List Char)
  | [] => .error .eof
  | c :: rest =>
    if c = '-' ∧ rest.take 2 = ['-', '>'] then .ok (rest.drop 2)
    else matchCommentEnd rest

/-- index.ts: `XMLParser.matchText`. -/
def matchText (input : List Char) : Except PErr (List Char × List Char) :=
  matchUntilChar ['<'] input

/-- The literal `]]>`. -/
def cdataClose : List Char := [']', ']', '>']

/-- index.ts: `XMLParser.matchCDataText`. -/
def matchCDataText (input : List Char) : Except PErr (List Char × List Char) :=
  matchUntilString cdataClose input

/-- JS `Map.prototype.set`: overwrite in place if the key exists, else
append, preserving insertion order. -/
def mapSet (m : List (String × String)) (k v : String) : List (String × String) :=
  if m.any (fun p => p.1 == k) then
    m.map (fun p => if p.1 == k then (k, v) else p)
  else m ++ [(k, v)]

/-- index.ts: `XMLParser.matchAttribute` — key up to whitespace/`=`, junk up
to `=`, junk up to a quote, value up to the matching quote character (the
peeked 1-character slice is passed on as the stop list, exactly like the JS
code compares against the peeked 1-character string). -/
def matchAttribute (input : List Char) : Except PErr ((String × String) × List Char) :=
  match matchUntilChar (whitespace ++ ['=']) input with
  | .error e => .error e
  | .ok (key, r1) =>
    match matchUntilChar ['='] r1 with
    | .error e => .error e
    | .ok (_, r2) =>
      match matchUntilChar ['"', squote] (r2.drop 1) with
      | .error e => .error e
      | .ok (_, r4) =>
        match matchUntilChar (r4.take 1) (r4.drop 1) with
        | .error e => .error e
        | .ok (value, r6) => .ok ((String.mk key, String.mk value), r6.drop 1)

/-- index.ts: `XMLParser.matchAttributes` with explicit fuel.  On empty
input the peeked slice is `""`, which is none of `/`, `>`, whitespace, so
control falls into `matchAttribute`, whose first `matchUntilChar` throws
EOF — written directly here. -/
def matchAttributesF : Nat → List (String × String) → List Char → Except PErr (List (String × String) × List Char)
  | 0, _, _ => .error .fuelExhausted
  | _ + 1, _, [] => .error .eof
  | fuel + 1, attrs, c :: rest =>
    if c = '/' ∨ c = '>' then .ok (attrs, c :: rest)
    else if isWhitespace c then matchAttributesF fuel attrs rest
    else
      match matchAttribute (c :: rest) with
      | .error e => .error e
      | .ok ((k, v), r) => matchAttributesF fuel (mapSet attrs k v) r

/-- index.ts: `XMLParser.matchAttributes`; each loop iteration consumes at
least one character, so `length + 1` fuel is enough (proved below). -/
def matchAttributes (input : List Char) : Except PErr (List (String × String) × List Char) :=
  matchAttributesF (input.length + 1) [] input

/-- index.ts: `XMLParser.assertChar`. -/
def assertChar (c : Char) (expected : List Char) : Except PErr Unit :=
  if expected.contains c then .ok () else .error (.unexpectedChar c expected)

/-- Popping a finished node: attach it to the new top of the stack (the JS
code already stored the object reference in the parent at `addNode` time;
see the module comment). -/
def attachToParent (n : XMLNode) : List XMLNode → List XMLNode
  | [] => []
  | p :: rest => XMLNode.mk p.tag p.attributes (p.children ++ [n]) :: rest

/-- index.ts: `XMLNode.appendText` applied to `lastNode()`; an empty stack
means `lastNode()` is `undefined` and the method call raises a TypeError. -/
def appendTextTop (nodes : List XMLNode) (text : String) : Except PErr (List XMLNode) :=
  match nodes with
  | [] => .error .typeError
  | n :: rest => .ok (XMLNode.mk n.tag n.attributes (n.children ++ [textNode text]) :: rest)

/-- Tail of `XMLParser.matchNodeStartTag` after the attribute split: the JS
code runs `addNode` and then, on `/`, asserts `>` and pops the node right
back off (attaching it to the parent), otherwise asserts `>` and leaves it
open on the stack. -/
def matchNodeStartTagFinish (tag : String) (attrs : List (String × String)) (c : Char)
    (input : List Char) (nodes : List XMLNode) : Except PErr (List Char × List XMLNode) :=
  if c = '/' then
    match getChar input with
    | .error e => .error e
    | .ok (c3, r) =>
      match assertChar c3 ['>'] with
      | .error e => .error e
      | .ok _ => .ok (r, attachToParent (XMLNode.mk tag attrs []) nodes)
  else
    match assertChar c ['>'] with
    | .error e => .error e
    | .ok _ => .ok (input, XMLNode.mk tag attrs [] :: nodes)

/-- index.ts: `XMLParser.matchNodeStartTag`. -/
def matchNodeStartTag (input : List Char) (nodes : List XMLNode) : Except PErr (List Char × List XMLNode) :=
  if input.take 1 = ['/'] then .error .unexpectedClosingTag
  else
    match matchUntilChar (whitespace ++ ['/', '>']) input with
    | .error e => .error e
    | .ok (tag, r1) =>
      match getChar r1 with
      | .error e => .error e
      | .ok (c, r2) =>
        if isWhitespace c then
          match matchAttributes r2 with
          | .error e => .error e
          | .ok (attrs, ra) =>
            match getChar ra with
            | .error e => .error e
            | .ok (c2, rb) => matchNodeStartTagFinish (String.mk tag) attrs c2 rb nodes
        else matchNodeStartTagFinish (String.mk tag) [] c r2 nodes

/-- Body of `XMLParser.matchNodeEndTag` once whitespace is skipped: tag name
up to whitespace/`>`, junk up to `>`, consume it, compare with the innermost
open node (`lastNode().tag` on an empty stack is a TypeError), pop. -/
def matchNodeEndTagBody (nodes : List XMLNode) (input : List Char) : Except PErr (XMLNode × List Char × List XMLNode) :=
  match matchUntilChar (whitespace ++ ['>']) input with
  | .error e => .error e
  | .ok (tag, r1) =>
    match matchUntilChar ['>'] r1 with
    | .error e => .error e
    | .ok (_, r2) =>
      match nodes with
      | [] => .error .typeError
      | top :: rest =>
        if String.mk tag ≠ top.tag then .error (.mismatchedClosingTag (String.mk tag) top.tag)
        else .ok (top, r2.drop 1, attachToParent top rest)

/-- index.ts: `XMLParser.matchNodeEndTag` — skip whitespace, then the body. -/
def matchNodeEndTag (nodes : List XMLNode) : List Char → Except PErr (XMLNode × List Char × List XMLNode)
  | [] => matchNodeEndTagBody nodes []
  | c :: rest =>
    if isWhitespace c then matchNodeEndTag nodes rest
    else matchNodeEndTagBody nodes (c :: rest)

/-- Text branch of `XMLParser.parse`: `this.i--` restores the already-read
character, `matchText` scans up to the next `<`, the text is appended to
`lastNode()` (JS evaluates `matchText` before the `undefined` method call
can raise, so EOF wins over the TypeError), and the re-assigned
`char = this.getChar()` consumes that `<` without being used again. -/
def matchTextStep (nodes : List XMLNode) (char : Char) (r1 : List Char) : Except PErr (List XMLNode × List Char) :=
  match matchText (char :: r1) with
  | .error e => .error e
  | .ok (text, rt) =>
    match appendTextTop nodes (String.mk text) with
    | .error e => .error e
    | .ok nodes2 =>
      match getChar rt with
      | .error e => .error e
      | .ok (_, rt2) => .ok (nodes2, rt2)

/-- The literal `![CDATA[`. -/
def cdataOpen : List Char := ['!', '[', 'C', 'D', 'A', 'T', 'A', '[']

/-- The CDATA check and the tag dispatch of one iteration of the
`while (true)` loop of `XMLParser.parse`, with the loop re-entry abstracted
as `recurse`. -/
def parseDispatch (recurse : List XMLNode → List Char → Except PErr XMLNode)
    (nodes2 : List XMLNode) (r3 : List Char) : Except PErr XMLNode :=
  if r3.take 8 = cdataOpen then
    match matchCDataText (r3.drop 8) with
    | .error e => .error e
    | .ok (text, r4) =>
      match appendTextTop nodes2 (String.mk text) with
      | .error e => .error e
      | .ok nodes4 => recurse nodes4 r4
  else if r3.take 1 = ['/'] then
    match matchNodeEndTag nodes2 (r3.drop 1) with
    | .error e => .error e
    | .ok (node, r5, nodes5) =>
      if nodes5.isEmpty then .ok node else recurse nodes5 r5
  else
    match matchNodeStartTag r3 nodes2 with
    | .error e => .error e
    | .ok (r5, nodes5) => recurse nodes5 r5

/-- Second half of one iteration of the `while (true)` loop of
`XMLParser.parse`: the comment check in front of `parseDispatch`.  Note the
comment branch does NOT `continue`: after `matchCommentEnd` the same
iteration goes on to the CDATA check and the tag dispatch. -/
def parseLoopTail (recurse : List XMLNode → List Char → Except PErr XMLNode)
    (nodes2 : List XMLNode) (r2 : List Char) : Except PErr XMLNode :=
  match (if r2.take 3 = ['!', '-', '-'] then matchCommentEnd (r2.drop 3) else .ok r2) with
  | .error e => .error e
  | .ok r3 => parseDispatch recurse nodes2 r3

/-- index.ts: the `while (true)` loop of `XMLParser.parse`, with fuel. -/
def parseLoop : Nat → List XMLNode → List Char → Except PErr XMLNode
  | 0, _, _ => .error .fuelExhausted
  | fuel + 1, nodes, input =>
    match getChar input with
    | .error e => .error e
    | .ok (char, r1) =>
      if isWhitespace char then parseLoop fuel nodes r1
      else
        match (if char ≠ '<' then matchTextStep nodes char r1 else .ok (nodes, r1)) with
        | .error e => .error e
        | .ok (nodes2, r2) => parseLoopTail (parseLoop fuel) nodes2 r2

/-- index.ts: `parseXML`.  Every loop iteration consumes at least one
character, so `length + 1` fuel is enough (claim C8's theorem). -/
def parseXML (s : String) : Except PErr XMLNode :=
  parseLoop (s.length + 1) [] s.toList

/-- index.ts: `validateXML` — the `try`/`catch` around `parser.parse()`. -/
def validateXML (s : String) : Bool :=
  match parseXML s with
  | .ok _ => true
  | .error _ => false

/-- index.ts: `XMLBuilderOptions.indentationType`. -/
inductive IndentationType where
  | tabs
  | spaces
deriving DecidableEq, Repr

/-- index.ts: `XMLBuilderOptions`, with the defaults the `XMLBuilder`
constructor spreads under the caller's options. -/
structure XMLBuilderOptions where
  indentationSize : Nat := 1
  indentationType : IndentationType := .tabs
  seperator : String := "\n"
  enableSelfClosingTags : Bool := true
deriving DecidableEq, Repr

/-- index.ts: `XMLBuilder.indentation` — the tab-or-space character
repeated `indentationSize * depth` times. -/
def indentation (opts : XMLBuilderOptions) (depth : Nat) : String :=
  String.mk (List.replicate (opts.indentationSize * depth)
    (if opts.indentationType = .tabs then '\t' else ' '))

/-- JS `Map.prototype.get` under template-literal interpolation: a missing
key is `undefined` and interpolates as the string `undefined`. -/
def lookupAttr (m : List (String × String)) (k : String) : String :=
  match m.find? (fun p => p.1 == k) with
  | some p => p.2
  | none => "undefined"

/-- The `beforeCallback` of `XMLBuilder.build`.  Note the `/` for childless
nodes is emitted unconditionally: the `enableSelfClosingTags` option is
never read by `build`. -/
def buildBefore (opts : XMLBuilderOptions) (node : XMLNode) (depth : Nat) : String :=
  if node.tag == "@text" then
    indentation opts depth ++ lookupAttr node.attributes "data" ++ opts.seperator
  else
    indentation opts depth ++ "<" ++ node.tag
      ++ String.join (node.attributes.map (fun p => " " ++ p.1 ++ "=\"" ++ p.2 ++ "\""))
      ++ (if node.children.isEmpty then "/" else "")
      ++ ">" ++ opts.seperator

/-- The `afterCallback` of `XMLBuilder.build`. -/
def buildAfter (opts : XMLBuilderOptions) (node : XMLNode) (depth : Nat) : String :=
  if node.tag == "@text" then ""
  else if node.children.isEmpty then ""
  else indentation opts depth ++ "</" ++ node.tag ++ ">" ++ opts.seperator

mutual
/-- index.ts: `XMLNode.dfs` as used by `XMLBuilder.build`: the before
callback on entry, the children in order at `depth + 1`, the after callback
on exit, all appended to the accumulator. -/
def buildNode (opts : XMLBuilderOptions) : XMLNode → Nat → String
  | .mk tag attrs children, depth =>
    buildBefore opts (.mk tag attrs children) depth
      ++ buildChildren opts children (depth + 1)
      ++ buildAfter opts (.mk tag attrs children) depth
/-- The `for (const child of this.children)` loop inside `XMLNode.dfs`. -/
def buildChildren (opts : XMLBuilderOptions) : List XMLNode → Nat → String
  | [], _ => ""
  | c :: cs, depth => buildNode opts c depth ++ buildChildren opts cs depth
end

/-- index.ts: `buildXML` (the `XMLBuilder` run from the root at depth 0).
A JS caller that omits `options` gets `{}`, i.e. all the defaults of the
`XMLBuilderOptions` fields. -/
def buildXML (rootNode : XMLNode) (options : XMLBuilderOptions) : String :=
  buildNode options rootNode 0

/-- JS `String(node)` for an `XMLNode` (no `toString` override): the
default `Object.prototype.toString` result. -/
def XMLNode.jsString (_ : XMLNode) : String := "[object Object]"

/-- index.ts: `XMLNode.innerText` — `children.filter(tag == '@text')`
followed by `Array.prototype.join(' ')`, which stringifies each element
(an `XMLNode` object, not its `data` attribute). -/
def XMLNode.innerText (n : XMLNode) : String :=
  String.intercalate " " ((n.children.filter (fun c => c.tag == "@text")).map XMLNode.jsString)

/-! ### Lemmas about the scanning primitives -/

theorem matchUntilChar_ok {stops input : List Char} {s r : List Char}
    (h : matchUntilChar stops input = .ok (s, r)) :
    input = s ++ r ∧ ∃ c t, r = c :: t ∧ stops.contains c = true := by
  induction input generalizing s with
  | nil => simp [matchUntilChar] at h
  | cons c rest ih =>
    rw [matchUntilChar] at h
    by_cases hc : stops.contains c
    · simp only [hc, if_pos] at h
      obtain ⟨rfl, rfl⟩ := by simpa using h
      exact ⟨rfl, c, rest, rfl, hc⟩
    · simp only [hc, if_neg, Bool.false_eq_true, not_false_eq_true] at h
      cases hrec : matchUntilChar stops rest with
      | error e => rw [hrec] at h; simp at h
      | ok pr =>
        obtain ⟨s0, r0⟩ := pr
        rw [hrec] at h
        obtain ⟨rfl, rfl⟩ := by simpa using h
        obtain ⟨heq, hr⟩ := ih hrec
        exact ⟨by simp [heq], hr⟩

theorem matchUntilChar_err {stops input : List Char} {e : PErr}
    (h : matchUntilChar stops input = .error e) : e = .eof := by
  induction input generalizing e with
  | nil =>
    rw [matchUntilChar] at h
    exact (Except.error.inj h).symm
  | cons c rest ih =>
    rw [matchUntilChar] at h
    by_cases hc : stops.contains c
    · simp only [hc, if_pos] at h
      exact absurd h (by simp)
    · simp only [hc, if_neg, Bool.false_eq_true, not_false_eq_true] at h
      cases hrec : matchUntilChar stops rest with
      | error e0 =>
        rw [hrec] at h
        obtain rfl : e0 = e := Except.error.inj h
        exact ih hrec
      | ok pr => obtain ⟨s0, r0⟩ := pr; rw [hrec] at h; simp at h

theorem matchUntilChar_append {stops input t : List Char} {s r : List Char}
    (h : matchUntilChar stops input = .ok (s, r)) :
    matchUntilChar stops (input ++ t) = .ok (s, r ++ t) := by
  induction input generalizing s with
  | nil => simp [matchUntilChar] at h
  | cons c rest ih =>
    rw [matchUntilChar] at h
    rw [List.cons_append, matchUntilChar]
    by_cases hc : stops.contains c
    · simp only [hc, if_pos] at h ⊢
      obtain ⟨rfl, rfl⟩ := by simpa using h
      simp
    · simp only [hc, if_neg, Bool.false_eq_true, not_false_eq_true] at h ⊢
      cases hrec : matchUntilChar stops rest with
      | error e => rw [hrec] at h; simp at h
      | ok pr =>
        obtain ⟨s0, r0⟩ := pr
        rw [hrec] at h
        obtain ⟨rfl, rfl⟩ := by simpa using h
        rw [ih hrec]

theorem matchUntilChar_of_split {stops a b : List Char} {c : Char}
    (ha : ∀ x ∈ a, stops.contains x = false) (hc : stops.contains c = true) :
    matchUntilChar stops (a ++ c :: b) = .ok (a, c :: b) := by
  induction a with
  | nil =>
    show matchUntilChar stops (c :: b) = .ok ([], c :: b)
    rw [matchUntilChar]
    simp only [hc, if_pos]
  | cons x xs ih =>
    have hx : stops.contains x = false := ha x (by simp)
    rw [List.cons_append, matchUntilChar]
    simp only [hx, Bool.false_eq_true, if_neg, not_false_eq_true]
    rw [ih (fun y hy => ha y (by simp [hy]))]

theorem matchUntilChar_all_nostop {stops l : List Char}
    (h : ∀ x ∈ l, stops.contains x = false) :
    matchUntilChar stops l = .error .eof := by
  induction l with
  | nil => rfl
  | cons c rest ih =>
    rw [matchUntilChar]
    simp only [h c (by simp), Bool.false_eq_true, if_neg, not_false_eq_true]
    rw [ih (fun y hy => h y (by simp [hy]))]

theorem listStartsWith_exists {p l : List Char} (h : listStartsWith p l = true) :
    ∃ r, l = p ++ r := by
  induction p generalizing l with
  | nil => exact ⟨l, rfl⟩
  | cons x xs ih =>
    cases l with
    | nil => simp [listStartsWith] at h
    | cons c cs =>
      simp only [listStartsWith] at h
      obtain ⟨h1, h2⟩ := by simpa using h
      obtain ⟨r, hr⟩ := ih h2
      exact ⟨r, by simp [h1, hr]⟩

theorem listStartsWith_of_append (p r : List Char) :
    listStartsWith p (p ++ r) = true := by
  induction p with
  | nil => rfl
  | cons x xs ih => simpa [listStartsWith] using ih

theorem listStartsWith_false_append {p l t : List Char}
    (h : listStartsWith p l = false) (hlen : p.length ≤ l.length) :
    listStartsWith p (l ++ t) = false := by
  induction p generalizing l with
  | nil => simp [listStartsWith] at h
  | cons x xs ih =>
    cases l with
    | nil => simp at hlen
    | cons c cs =>
      simp only [listStartsWith] at h ⊢
      by_cases hx : x == c
      · simp only [hx, Bool.true_and] at h ⊢
        exact ih h (by simpa using hlen)
      · simp only [Bool.eq_false_iff] at hx
        simp [Bool.eq_false_iff.mpr hx]

theorem splitAtSub_ok {pat input a b : List Char}
    (h : splitAtSub pat input = some (a, b)) : input = a ++ pat ++ b := by
  induction input generalizing a with
  | nil =>
    rw [splitAtSub] at h
    by_cases hp : listStartsWith pat [] = true
    · obtain ⟨r, hr⟩ := listStartsWith_exists hp
      have hpat : pat = [] := by
        cases pat with
        | nil => rfl
        | cons y ys => simp at hr
      simp only [hp, if_pos] at h
      obtain ⟨rfl, rfl⟩ := by simpa using h
      simp [hpat]
    · simp [hp] at h
  | cons c rest ih =>
    rw [splitAtSub] at h
    by_cases hp : listStartsWith pat (c :: rest) = true
    · obtain ⟨r, hr⟩ := listStartsWith_exists hp
      simp only [hp, if_pos] at h
      obtain ⟨rfl, rfl⟩ := by simpa using h
      rw [hr, List.drop_left]
      simp
    · simp only [hp, if_neg, not_false_eq_true] at h
      cases hrec : splitAtSub pat rest with
      | none => rw [hrec] at h; simp at h
      | some pr =>
        obtain ⟨a0, b0⟩ := pr
        rw [hrec] at h
        obtain ⟨rfl, rfl⟩ := by simpa using h
        simp [ih hrec]

theorem splitAtSub_append {pat input t a b : List Char}
    (h : splitAtSub pat input = some (a, b)) :
    splitAtSub pat (input ++ t) = some (a, b ++ t) := by
  induction input generalizing a with
  | nil =>
    rw [splitAtSub] at h
    by_cases hp : listStartsWith pat [] = true
    · have hpat : pat = [] := by
        obtain ⟨r, hr⟩ := listStartsWith_exists hp
        cases pat with
        | nil => rfl
        | cons y ys => simp at hr
      simp only [hp, if_pos] at h
      obtain ⟨rfl, rfl⟩ := by simpa using h
      subst hpat
      cases t with
      | nil => rfl
      | cons c cs => simp [splitAtSub, listStartsWith]
    · simp [hp] at h
  | cons c rest ih =>
    rw [splitAtSub] at h
    rw [List.cons_append, splitAtSub]
    by_cases hp : listStartsWith pat (c :: rest) = true
    · obtain ⟨r, hr⟩ := listStartsWith_exists hp
      simp only [hp, if_pos] at h
      obtain ⟨rfl, rfl⟩ := by simpa using h
      have hp2 : listStartsWith pat (c :: rest ++ t) = true := by
        rw [hr, List.append_assoc]
        exact listStartsWith_of_append pat (r ++ t)
      simp only [← List.cons_append, hp2, if_pos]
      rw [hr, List.append_assoc, List.drop_left, List.drop_left]
    · simp only [hp, if_neg, not_false_eq_true] at h
      cases hrec : splitAtSub pat rest with
      | none => rw [hrec] at h; simp at h
      | some pr =>
        obtain ⟨a0, b0⟩ := pr
        rw [hrec] at h
        obtain ⟨rfl, rfl⟩ := by simpa using h
        have hlen : pat.length ≤ (c :: rest).length := by
          have hsz := congrArg List.length (splitAtSub_ok hrec)
          simp only [List.length_append] at hsz
          simp only [List.length_cons]
          omega
        have hpf : listStartsWith pat (c :: rest) = false := by simpa using hp
        have hp2 : listStartsWith pat ((c :: rest) ++ t) = false :=
          listStartsWith_false_append hpf hlen
        simp only [List.cons_append] at hp2
        simp only [hp2, Bool.false_eq_true, if_neg, not_false_eq_true]
        rw [ih hrec]

theorem matchUntilString_ok {pat input f r : List Char}
    (h : matchUntilString pat input = .ok (f, r)) : input = f ++ pat ++ r := by
  rw [matchUntilString] at h
  cases hs : splitAtSub pat input with
  | none => rw [hs] at h; simp at h
  | some pr =>
    obtain ⟨a, b⟩ := pr
    rw [hs] at h
    obtain ⟨rfl, rfl⟩ := by simpa using h
    exact splitAtSub_ok hs

theorem matchUntilString_append {pat input t f r : List Char}
    (h : matchUntilString pat input = .ok (f, r)) :
    matchUntilString pat (input ++ t) = .ok (f, r ++ t) := by
  rw [matchUntilString] at h ⊢
  cases hs : splitAtSub pat input with
  | none => rw [hs] at h; simp at h
  | some pr =>
    obtain ⟨a, b⟩ := pr
    rw [hs] at h
    obtain ⟨rfl, rfl⟩ := by simpa using h
    rw [splitAtSub_append hs]

theorem matchUntilString_err {pat input : List Char} {e : PErr}
    (h : matchUntilString pat input = .error e) : e = .eof := by
  rw [matchUntilString] at h
  cases hs : splitAtSub pat input with
  | none => rw [hs] at h; simpa using h.symm
  | some pr => obtain ⟨a, b⟩ := pr; rw [hs] at h; simp at h

theorem matchCommentEnd_ok_len {input r : List Char}
    (h : matchCommentEnd input = .ok r) : r.length + 3 ≤ input.length := by
  induction input with
  | nil => simp [matchCommentEnd] at h
  | cons c rest ih =>
    rw [matchCommentEnd] at h
    by_cases hc : c = '-' ∧ rest.take 2 = ['-', '>']
    · simp only [hc, and_self, if_pos] at h
      obtain rfl := by simpa using h
      have h2 : (rest.take 2).length = 2 := by rw [hc.2]; rfl
      rw [List.length_take] at h2
      simp only [List.length_drop, List.length_cons]
      omega
    · simp only [hc, if_neg, not_false_eq_true] at h
      have := ih h
      simp only [List.length_cons]
      omega

theorem matchCommentEnd_append {input t r : List Char}
    (h : matchCommentEnd input = .ok r) :
    matchCommentEnd (input ++ t) = .ok (r ++ t) := by
  induction input with
  | nil => simp [matchCommentEnd] at h
  | cons c rest ih =>
    rw [matchCommentEnd] at h
    rw [List.cons_append, matchCommentEnd]
    by_cases hc : c = '-' ∧ rest.take 2 = ['-', '>']
    · have h2 : (rest.take 2).length = 2 := by rw [hc.2]; rfl
      rw [List.length_take] at h2
      have hlen : 2 ≤ rest.length := by omega
      simp only [hc, and_self, if_pos] at h
      obtain rfl := by simpa using h
      have hc2 : c = '-' ∧ (rest ++ t).take 2 = ['-', '>'] :=
        ⟨hc.1, by rw [List.take_append_of_le_length hlen]; exact hc.2⟩
      simp only [hc2, and_self, if_pos]
      rw [List.drop_append_of_le_length hlen]
    · simp only [hc, if_neg, not_false_eq_true] at h
      have hlen : 2 ≤ rest.length := by
        have := matchCommentEnd_ok_len h
        omega
      have hc2 : ¬(c = '-' ∧ (rest ++ t).take 2 = ['-', '>']) := by
        rw [List.take_append_of_le_length hlen]
        exact hc
      simp only [hc2, if_neg, not_false_eq_true]
      exact ih h

theorem matchCommentEnd_err {input : List Char} {e : PErr}
    (h : matchCommentEnd input = .error e) : e = .eof := by
  induction input with
  | nil => simpa [matchCommentEnd] using h.symm
  | cons c rest ih =>
    rw [matchCommentEnd] at h
    by_cases hc : c = '-' ∧ rest.take 2 = ['-', '>']
    · simp [hc] at h
    · simp only [hc, if_neg, not_false_eq_true] at h
      exact ih h

/-! ### Lemmas about attribute parsing -/

theorem matchAttribute_ok_facts {input : List Char} {kv : String × String} {r : List Char}
    (h : matchAttribute input = .ok (kv, r)) :
    r.length < input.length ∧ ∀ t, matchAttribute (input ++ t) = .ok (kv, r ++ t) := by
  rw [matchAttribute] at h
  cases h1 : matchUntilChar (whitespace ++ ['=']) input with
  | error e => rw [h1] at h; simp at h
  | ok p1 =>
    obtain ⟨key, r1⟩ := p1
    rw [h1] at h
    dsimp only at h
    cases h2 : matchUntilChar ['='] r1 with
    | error e => rw [h2] at h; simp at h
    | ok p2 =>
      obtain ⟨s2, r2⟩ := p2
      rw [h2] at h
      dsimp only at h
      cases h3 : matchUntilChar ['"', squote] (r2.drop 1) with
      | error e => rw [h3] at h; simp at h
      | ok p3 =>
        obtain ⟨s3, r4⟩ := p3
        rw [h3] at h
        dsimp only at h
        cases h4 : matchUntilChar (r4.take 1) (r4.drop 1) with
        | error e => rw [h4] at h; simp at h
        | ok p4 =>
          obtain ⟨value, r6⟩ := p4
          rw [h4] at h
          dsimp only at h
          obtain ⟨rfl, rfl⟩ := by simpa using h
          obtain ⟨hi1, c1, t1, rfl, -⟩ := matchUntilChar_ok h1
          obtain ⟨hi2, c2, t2, rfl, -⟩ := matchUntilChar_ok h2
          obtain ⟨hi3, c4, t4, rfl, -⟩ := matchUntilChar_ok h3
          obtain ⟨hi4, c6, t6, rfl, -⟩ := matchUntilChar_ok h4
          constructor
          · have l1 := congrArg List.length hi1
            have l2 := congrArg List.length hi2
            have l3 := congrArg List.length hi3
            have l4 := congrArg List.length hi4
            simp only [List.length_append, List.length_cons, List.length_drop] at l1 l2 l3 l4
            simp only [List.tail_cons, List.length_cons]
            omega
          · intro t
            have e2s : List.drop 1 (c2 :: t2) = t2 := rfl
            have e4as : List.take 1 (c4 :: t4) = [c4] := rfl
            have e4bs : List.drop 1 (c4 :: t4) = t4 := rfl
            rw [e2s] at h3
            rw [e4as, e4bs] at h4
            have e2 : List.drop 1 ((c2 :: t2) ++ t) = t2 ++ t := rfl
            have e4a : List.take 1 ((c4 :: t4) ++ t) = [c4] := rfl
            have e4b : List.drop 1 ((c4 :: t4) ++ t) = t4 ++ t := rfl
            have e6 : List.drop 1 ((c6 :: t6) ++ t) = t6 ++ t := rfl
            rw [matchAttribute, matchUntilChar_append h1]
            dsimp only
            rw [matchUntilChar_append h2]
            dsimp only
            rw [e2, matchUntilChar_append h3]
            dsimp only
            rw [e4a, e4b, matchUntilChar_append h4]
            dsimp only
            rw [e6]
            rfl

theorem matchAttribute_err {input : List Char} {e : PErr}
    (h : matchAttribute input = .error e) : e = .eof := by
  rw [matchAttribute] at h
  cases h1 : matchUntilChar (whitespace ++ ['=']) input with
  | error e1 =>
    rw [h1] at h
    dsimp only at h
    obtain rfl : e1 = e := Except.error.inj h
    exact matchUntilChar_err h1
  | ok p1 =>
    obtain ⟨key, r1⟩ := p1
    rw [h1] at h
    dsimp only at h
    cases h2 : matchUntilChar ['='] r1 with
    | error e2 =>
      rw [h2] at h
      dsimp only at h
      obtain rfl : e2 = e := Except.error.inj h
      exact matchUntilChar_err h2
    | ok p2 =>
      obtain ⟨s2, r2⟩ := p2
      rw [h2] at h
      dsimp only at h
      cases h3 : matchUntilChar ['"', squote] (r2.drop 1) with
      | error e3 =>
        rw [h3] at h
        dsimp only at h
        obtain rfl : e3 = e := Except.error.inj h
        exact matchUntilChar_err h3
      | ok p3 =>
        obtain ⟨s3, r4⟩ := p3
        rw [h3] at h
        dsimp only at h
        cases h4 : matchUntilChar (r4.take 1) (r4.drop 1) with
        | error e4 =>
          rw [h4] at h
          dsimp only at h
          obtain rfl : e4 = e := Except.error.inj h
          exact matchUntilChar_err h4
        | ok p4 => obtain ⟨value, r6⟩ := p4; rw [h4] at h; simp at h

theorem matchAttributesF_ok_len {fuel : Nat} {attrs a : List (String × String)}
    {input r : List Char} (h : matchAttributesF fuel attrs input = .ok (a, r)) :
    r.length ≤ input.length := by
  induction fuel generalizing attrs input with
  | zero => simp [matchAttributesF] at h
  | succ fuel ih =>
    cases input with
    | nil => simp [matchAttributesF] at h
    | cons c rest =>
      rw [matchAttributesF] at h
      by_cases hg : c = '/' ∨ c = '>'
      · simp only [hg, if_pos] at h
        obtain ⟨rfl, rfl⟩ := by simpa using h
        exact le_refl _
      · simp only [hg, if_neg, not_false_eq_true] at h
        by_cases hw : isWhitespace c
        · simp only [hw, if_pos] at h
          have := ih h
          simp only [List.length_cons]
          omega
        · simp only [hw, Bool.false_eq_true, if_neg, not_false_eq_true] at h
          cases ha : matchAttribute (c :: rest) with
          | error e => rw [ha] at h; simp at h
          | ok pr =>
            obtain ⟨kv, r0⟩ := pr
            obtain ⟨k, v⟩ := kv
            rw [ha] at h
            have h0 := (matchAttribute_ok_facts ha).1
            have h1 := ih h
            simp only [List.length_cons] at h0 ⊢
            omega

theorem matchAttributesF_no_fuelErr {fuel : Nat} {attrs : List (String × String)}
    {input : List Char} (hfuel : input.length < fuel) :
    matchAttributesF fuel attrs input ≠ .error .fuelExhausted := by
  induction fuel generalizing attrs input with
  | zero => omega
  | succ fuel ih =>
    cases input with
    | nil => simp [matchAttributesF]
    | cons c rest =>
      rw [matchAttributesF]
      by_cases hg : c = '/' ∨ c = '>'
      · simp [hg]
      · simp only [hg, if_neg, not_false_eq_true]
        by_cases hw : isWhitespace c
        · simp only [hw, if_pos]
          exact ih (by simp only [List.length_cons] at hfuel; omega)
        · simp only [hw, Bool.false_eq_true, if_neg, not_false_eq_true]
          cases ha : matchAttribute (c :: rest) with
          | error e =>
            have := matchAttribute_err ha
            subst this
            simp
          | ok pr =>
            obtain ⟨kv, r0⟩ := pr
            obtain ⟨k, v⟩ := kv
            have h0 := (matchAttribute_ok_facts ha).1
            simp only [List.length_cons] at h0 hfuel
            exact ih (by omega)

theorem matchAttributesF_append {fuel : Nat} {attrs a : List (String × String)}
    {input r t : List Char} (h : matchAttributesF fuel attrs input = .ok (a, r)) :
    ∀ fuel', fuel ≤ fuel' → matchAttributesF fuel' attrs (input ++ t) = .ok (a, r ++ t) := by
  induction fuel generalizing attrs input with
  | zero => simp [matchAttributesF] at h
  | succ fuel ih =>
    intro fuel' hf
    obtain ⟨f2, rfl⟩ : ∃ f2, fuel' = f2 + 1 := ⟨fuel' - 1, by omega⟩
    have hf2 : fuel ≤ f2 := by omega
    cases input with
    | nil => simp [matchAttributesF] at h
    | cons c rest =>
      rw [matchAttributesF] at h
      rw [List.cons_append, matchAttributesF]
      by_cases hg : c = '/' ∨ c = '>'
      · simp only [hg, if_pos] at h ⊢
        obtain ⟨rfl, rfl⟩ := by simpa using h
        simp
      · simp only [hg, if_neg, not_false_eq_true] at h ⊢
        by_cases hw : isWhitespace c
        · simp only [hw, if_pos] at h ⊢
          exact ih h f2 hf2
        · simp only [hw, Bool.false_eq_true, if_neg, not_false_eq_true] at h ⊢
          cases ha : matchAttribute (c :: rest) with
          | error e => rw [ha] at h; simp at h
          | ok pr =>
            obtain ⟨kv, r0⟩ := pr
            obtain ⟨k, v⟩ := kv
            rw [ha] at h
            have happ := (matchAttribute_ok_facts ha).2 t
            rw [List.cons_append] at happ
            rw [happ]
            exact ih h f2 hf2

theorem matchAttributes_ok_len {input r : List Char} {a : List (String × String)}
    (h : matchAttributes input = .ok (a, r)) : r.length ≤ input.length :=
  matchAttributesF_ok_len h

theorem matchAttributes_no_fuelErr (input : List Char) :
    matchAttributes input ≠ .error .fuelExhausted :=
  matchAttributesF_no_fuelErr (by omega)

theorem matchAttributes_append {input t r : List Char} {a : List (String × String)}
    (h : matchAttributes input = .ok (a, r)) :
    matchAttributes (input ++ t) = .ok (a, r ++ t) := by
  rw [matchAttributes] at h ⊢
  exact matchAttributesF_append h _ (by simp only [List.length_append]; omega)

theorem matchAttributes_err {input : List Char} {e : PErr}
    (h : matchAttributes input = .error e) : e ≠ .fuelExhausted := by
  intro hef
  subst hef
  exact matchAttributes_no_fuelErr input h

/-! ### Lemmas about tag parsing -/

theorem assertChar_err {c : Char} {expected : List Char} {e : PErr}
    (h : assertChar c expected = .error e) : e = .unexpectedChar c expected := by
  rw [assertChar] at h
  by_cases hm : expected.contains c
  · rw [if_pos hm] at h
    simp at h
  · simp only [hm, Bool.false_eq_true, if_neg, not_false_eq_true] at h
    exact (Except.error.inj h).symm

theorem matchNodeStartTagFinish_facts {tag : String} {attrs : List (String × String)}
    {c : Char} {input r : List Char} {nodes ns : List XMLNode}
    (h : matchNodeStartTagFinish tag attrs c input nodes = .ok (r, ns)) :
    r.length ≤ input.length ∧
      ∀ t, matchNodeStartTagFinish tag attrs c (input ++ t) nodes = .ok (r ++ t, ns) := by
  rw [matchNodeStartTagFinish] at h
  by_cases hc : c = '/'
  · simp only [hc, if_pos] at h
    cases input with
    | nil => simp [getChar] at h
    | cons c3 rest =>
      rw [getChar] at h
      dsimp only at h
      cases ha : assertChar c3 ['>'] with
      | error e => rw [ha] at h; simp at h
      | ok u =>
        rw [ha] at h
        dsimp only at h
        obtain ⟨rfl, rfl⟩ := by simpa using h
        refine ⟨by simp, fun t => ?_⟩
        rw [matchNodeStartTagFinish]
        simp only [hc, if_pos]
        rw [List.cons_append, getChar]
        dsimp only
        rw [ha]
  · simp only [hc, if_neg, not_false_eq_true] at h
    cases ha : assertChar c ['>'] with
    | error e => rw [ha] at h; simp at h
    | ok u =>
      rw [ha] at h
      dsimp only at h
      obtain ⟨rfl, rfl⟩ := by simpa using h
      refine ⟨le_refl _, fun t => ?_⟩
      rw [matchNodeStartTagFinish]
      simp only [hc, if_neg, not_false_eq_true]
      rw [ha]

theorem matchNodeStartTagFinish_err {tag : String} {attrs : List (String × String)}
    {c : Char} {input : List Char} {nodes : List XMLNode} {e : PErr}
    (h : matchNodeStartTagFinish tag attrs c input nodes = .error e) : e ≠ .fuelExhausted := by
  rw [matchNodeStartTagFinish] at h
  by_cases hc : c = '/'
  · simp only [hc, if_pos] at h
    cases input with
    | nil =>
      rw [getChar] at h
      obtain rfl : PErr.eof = e := Except.error.inj h
      simp
    | cons c3 rest =>
      rw [getChar] at h
      dsimp only at h
      cases ha : assertChar c3 ['>'] with
      | error e0 =>
        rw [ha] at h
        obtain rfl : e0 = e := Except.error.inj h
        rw [assertChar_err ha]
        simp
      | ok u => rw [ha] at h; simp at h
  · simp only [hc, if_neg, not_false_eq_true] at h
    cases ha : assertChar c ['>'] with
    | error e0 =>
      rw [ha] at h
      obtain rfl : e0 = e := Except.error.inj h
      rw [assertChar_err ha]
      simp
    | ok u => rw [ha] at h; simp at h

theorem matchNodeStartTag_facts {input r : List Char} {nodes ns : List XMLNode}
    (h : matchNodeStartTag input nodes = .ok (r, ns)) :
    r.length < input.length ∧
      ∀ t, matchNodeStartTag (input ++ t) nodes = .ok (r ++ t, ns) := by
  rw [matchNodeStartTag] at h
  by_cases hg : input.take 1 = ['/']
  · simp [hg] at h
  · simp only [hg, if_neg, not_false_eq_true] at h
    cases h1 : matchUntilChar (whitespace ++ ['/', '>']) input with
    | error e => rw [h1] at h; simp at h
    | ok p1 =>
      obtain ⟨tag, r1⟩ := p1
      rw [h1] at h
      dsimp only at h
      obtain ⟨hi1, c1, t1, rfl, -⟩ := matchUntilChar_ok h1
      rw [getChar] at h
      dsimp only at h
      have hne : input ≠ [] := by
        rw [hi1]; intro hx
        have := congrArg List.length hx
        simp [List.length_append] at this
      have hg2 : ∀ t, (input ++ t).take 1 = input.take 1 := by
        intro t
        refine List.take_append_of_le_length ?_
        cases input with
        | nil => exact absurd rfl hne
        | cons a b => simp
      by_cases hw : isWhitespace c1
      · simp only [hw, if_pos] at h
        cases h2 : matchAttributes t1 with
        | error e => rw [h2] at h; simp at h
        | ok p2 =>
          obtain ⟨attrs, ra⟩ := p2
          rw [h2] at h
          dsimp only at h
          cases ra with
          | nil => rw [getChar] at h; simp at h
          | cons c2 rb =>
            rw [getChar] at h
            dsimp only at h
            obtain ⟨hlen, happ⟩ := matchNodeStartTagFinish_facts h
            have hra := matchAttributes_ok_len h2
            have hil := congrArg List.length hi1
            simp only [List.length_append, List.length_cons] at hil hra
            constructor
            · omega
            · intro t
              rw [matchNodeStartTag]
              simp only [hg2 t, hg, if_neg, not_false_eq_true]
              rw [matchUntilChar_append h1]
              dsimp only
              rw [List.cons_append, getChar]
              dsimp only
              simp only [hw, if_pos]
              rw [matchAttributes_append h2]
              dsimp only
              rw [List.cons_append, getChar]
              dsimp only
              exact happ t
      · simp only [hw, Bool.false_eq_true, if_neg, not_false_eq_true] at h
        obtain ⟨hlen, happ⟩ := matchNodeStartTagFinish_facts h
        have hil := congrArg List.length hi1
        simp only [List.length_append, List.length_cons] at hil
        constructor
        · omega
        · intro t
          rw [matchNodeStartTag]
          simp only [hg2 t, hg, if_neg, not_false_eq_true]
          rw [matchUntilChar_append h1]
          dsimp only
          rw [List.cons_append, getChar]
          dsimp only
          simp only [hw, Bool.false_eq_true, if_neg, not_false_eq_true]
          exact happ t

theorem matchNodeStartTag_err {input : List Char} {nodes : List XMLNode} {e : PErr}
    (h : matchNodeStartTag input nodes = .error e) : e ≠ .fuelExhausted := by
  rw [matchNodeStartTag] at h
  by_cases hg : input.take 1 = ['/']
  · simp only [hg, if_pos] at h
    obtain rfl := (Except.error.inj h).symm
    simp
  · simp only [hg, if_neg, not_false_eq_true] at h
    cases h1 : matchUntilChar (whitespace ++ ['/', '>']) input with
    | error e1 =>
      rw [h1] at h
      obtain rfl : e1 = e := Except.error.inj h
      rw [matchUntilChar_err h1]
      simp
    | ok p1 =>
      obtain ⟨tag, r1⟩ := p1
      rw [h1] at h
      dsimp only at h
      cases r1 with
      | nil =>
        rw [getChar] at h
        obtain rfl : PErr.eof = e := Except.error.inj h
        simp
      | cons c1 t1 =>
        rw [getChar] at h
        dsimp only at h
        by_cases hw : isWhitespace c1
        · simp only [hw, if_pos] at h
          cases h2 : matchAttributes t1 with
          | error e2 =>
            rw [h2] at h
            obtain rfl : e2 = e := Except.error.inj h
            exact matchAttributes_err h2
          | ok p2 =>
            obtain ⟨attrs, ra⟩ := p2
            rw [h2] at h
            dsimp only at h
            cases ra with
            | nil =>
              rw [getChar] at h
              obtain rfl : PErr.eof = e := Except.error.inj h
              simp
            | cons c2 rb =>
              rw [getChar] at h
              dsimp only at h
              exact matchNodeStartTagFinish_err h
        · simp only [hw, Bool.false_eq_true, if_neg, not_false_eq_true] at h
          exact matchNodeStartTagFinish_err h

theorem matchNodeStartTag_nostop_err {input : List Char} {nodes : List XMLNode}
    (hns : ∀ x ∈ input, (whitespace ++ ['/', '>']).contains x = false) :
    matchNodeStartTag input nodes = .error .eof := by
  rw [matchNodeStartTag]
  have hg : input.take 1 ≠ ['/'] := by
    cases input with
    | nil => simp
    | cons c rest =>
      have := hns c (by simp)
      simp only [List.take_succ_cons, List.take_zero]
      intro hx
      obtain rfl : c = '/' := by simpa using hx
      simp [whitespace] at this
  simp only [hg, if_neg, not_false_eq_true]
  rw [matchUntilChar_all_nostop hns]

theorem matchNodeEndTagBody_facts {input r : List Char} {nodes ns : List XMLNode} {n : XMLNode}
    (h : matchNodeEndTagBody nodes input = .ok (n, r, ns)) :
    r.length < input.length ∧
      ∀ t, matchNodeEndTagBody nodes (input ++ t) = .ok (n, r ++ t, ns) := by
  rw [matchNodeEndTagBody] at h
  cases h1 : matchUntilChar (whitespace ++ ['>']) input with
  | error e => rw [h1] at h; simp at h
  | ok p1 =>
    obtain ⟨tag, r1⟩ := p1
    rw [h1] at h
    dsimp only at h
    cases h2 : matchUntilChar ['>'] r1 with
    | error e => rw [h2] at h; simp at h
    | ok p2 =>
      obtain ⟨s2, r2⟩ := p2
      rw [h2] at h
      dsimp only at h
      obtain ⟨hi1, c1, t1, rfl, -⟩ := matchUntilChar_ok h1
      obtain ⟨hi2, c2, t2, rfl, -⟩ := matchUntilChar_ok h2
      cases nodes with
      | nil => simp at h
      | cons top rest =>
        dsimp only at h
        by_cases htag : String.mk tag ≠ top.tag
        · rw [if_pos htag] at h
          simp at h
        · rw [if_neg htag] at h
          obtain ⟨rfl, rfl, rfl⟩ := by simpa using h
          constructor
          · have l1 := congrArg List.length hi1
            have l2 := congrArg List.length hi2
            simp only [List.length_append, List.length_cons] at l1 l2
            omega
          · intro t
            have e2 : List.drop 1 ((c2 :: t2) ++ t) = t2 ++ t := rfl
            rw [matchNodeEndTagBody, matchUntilChar_append h1]
            dsimp only
            rw [matchUntilChar_append h2]
            dsimp only
            rw [if_neg htag, e2]

theorem matchNodeEndTagBody_err {input : List Char} {nodes : List XMLNode} {e : PErr}
    (h : matchNodeEndTagBody nodes input = .error e) : e ≠ .fuelExhausted := by
  rw [matchNodeEndTagBody] at h
  cases h1 : matchUntilChar (whitespace ++ ['>']) input with
  | error e1 =>
    rw [h1] at h
    obtain rfl : e1 = e := Except.error.inj h
    rw [matchUntilChar_err h1]
    simp
  | ok p1 =>
    obtain ⟨tag, r1⟩ := p1
    rw [h1] at h
    dsimp only at h
    cases h2 : matchUntilChar ['>'] r1 with
    | error e2 =>
      rw [h2] at h
      obtain rfl : e2 = e := Except.error.inj h
      rw [matchUntilChar_err h2]
      simp
    | ok p2 =>
      obtain ⟨s2, r2⟩ := p2
      rw [h2] at h
      dsimp only at h
      cases nodes with
      | nil =>
        obtain rfl : PErr.typeError = e := Except.error.inj h
        simp
      | cons top rest =>
        dsimp only at h
        by_cases htag : String.mk tag ≠ top.tag
        · rw [if_pos htag] at h
          obtain rfl := (Except.error.inj h).symm
          simp
        · rw [if_neg htag] at h
          simp at h

theorem matchNodeEndTag_facts {input r : List Char} {nodes ns : List XMLNode} {n : XMLNode}
    (h : matchNodeEndTag nodes input = .ok (n, r, ns)) :
    r.length < input.length ∧
      ∀ t, matchNodeEndTag nodes (input ++ t) = .ok (n, r ++ t, ns) := by
  induction input with
  | nil =>
    rw [matchNodeEndTag, matchNodeEndTagBody, matchUntilChar] at h
    simp at h
  | cons c rest ih =>
    rw [matchNodeEndTag] at h
    by_cases hw : isWhitespace c
    · simp only [hw, if_pos] at h
      obtain ⟨hlen, happ⟩ := ih h
      constructor
      · simp only [List.length_cons]; omega
      · intro t
        rw [List.cons_append, matchNodeEndTag]
        simp only [hw, if_pos]
        exact happ t
    · simp only [hw, Bool.false_eq_true, if_neg, not_false_eq_true] at h
      obtain ⟨hlen, happ⟩ := matchNodeEndTagBody_facts h
      constructor
      · exact hlen
      · intro t
        rw [List.cons_append, matchNodeEndTag]
        simp only [hw, Bool.false_eq_true, if_neg, not_false_eq_true]
        have := happ t
        rw [List.cons_append] at this
        exact this

theorem matchNodeEndTag_err {input : List Char} {nodes : List XMLNode} {e : PErr}
    (h : matchNodeEndTag nodes input = .error e) : e ≠ .fuelExhausted := by
  induction input with
  | nil => exact matchNodeEndTagBody_err h
  | cons c rest ih =>
    rw [matchNodeEndTag] at h
    by_cases hw : isWhitespace c
    · simp only [hw, if_pos] at h
      exact ih h
    · simp only [hw, Bool.false_eq_true, if_neg, not_false_eq_true] at h
      exact matchNodeEndTagBody_err h

theorem matchTextStep_facts {char : Char} {r1 r : List Char} {nodes ns : List XMLNode}
    (h : matchTextStep nodes char r1 = .ok (ns, r)) :
    r.length ≤ r1.length ∧
      ∀ t, matchTextStep nodes char (r1 ++ t) = .ok (ns, r ++ t) := by
  rw [matchTextStep] at h
  cases h1 : matchText (char :: r1) with
  | error e => rw [h1] at h; simp at h
  | ok p1 =>
    obtain ⟨text, rt⟩ := p1
    rw [h1] at h
    dsimp only at h
    cases h2 : appendTextTop nodes (String.mk text) with
    | error e => rw [h2] at h; simp at h
    | ok nodes2 =>
      rw [h2] at h
      dsimp only at h
      rw [matchText] at h1
      obtain ⟨hi1, c1, t1, rfl, -⟩ := matchUntilChar_ok h1
      rw [getChar] at h
      dsimp only at h
      obtain ⟨rfl, rfl⟩ := by simpa using h
      constructor
      · have l1 := congrArg List.length hi1
        simp only [List.length_cons, List.length_append] at l1
        omega
      · intro t
        rw [matchTextStep]
        have e1 : char :: (r1 ++ t) = (char :: r1) ++ t := rfl
        rw [matchText, e1, matchUntilChar_append h1]
        dsimp only
        rw [h2]
        dsimp only
        rw [List.cons_append, getChar]

theorem matchTextStep_err {char : Char} {r1 : List Char} {nodes : List XMLNode} {e : PErr}
    (h : matchTextStep nodes char r1 = .error e) : e ≠ .fuelExhausted := by
  rw [matchTextStep] at h
  cases h1 : matchText (char :: r1) with
  | error e1 =>
    rw [h1] at h
    obtain rfl : e1 = e := Except.error.inj h
    rw [matchText] at h1
    rw [matchUntilChar_err h1]
    simp
  | ok p1 =>
    obtain ⟨text, rt⟩ := p1
    rw [h1] at h
    dsimp only at h
    cases h2 : appendTextTop nodes (String.mk text) with
    | error e2 =>
      rw [h2] at h
      obtain rfl : e2 = e := Except.error.inj h
      cases nodes with
      | nil =>
        have hnil : appendTextTop [] (String.mk text) = .error .typeError := rfl
        rw [hnil] at h2
        obtain rfl := (Except.error.inj h2).symm
        simp
      | cons n0 rest =>
        have hcons : appendTextTop (n0 :: rest) (String.mk text) =
            .ok (XMLNode.mk n0.tag n0.attributes (n0.children ++ [textNode (String.mk text)]) :: rest) := rfl
        rw [hcons] at h2
        simp at h2
    | ok nodes2 =>
      rw [h2] at h
      dsimp only at h
      rw [matchText] at h1
      obtain ⟨hi1, c1, t1, rfl, -⟩ := matchUntilChar_ok h1
      rw [getChar] at h
      simp at h

/-! ### Lemmas about the parse loop -/

theorem errNe {α : Type} {e eX : PErr} (h : e ≠ eX) :
    (Except.error e : Except PErr α) ≠ .error eX :=
  fun hx => h (Except.error.inj hx)

theorem appendTextTop_err {nodes : List XMLNode} {text : String} {e : PErr}
    (h : appendTextTop nodes text = .error e) : e = .typeError := by
  cases nodes with
  | nil =>
    have hnil : appendTextTop [] text = .error .typeError := rfl
    rw [hnil] at h
    exact (Except.error.inj h).symm
  | cons n0 rest =>
    have hcons : appendTextTop (n0 :: rest) text =
        .ok (XMLNode.mk n0.tag n0.attributes (n0.children ++ [textNode text]) :: rest) := rfl
    rw [hcons] at h
    simp at h

theorem parseDispatch_nostop_err {recurse : List XMLNode → List Char → Except PErr XMLNode}
    {nodes2 : List XMLNode} {r3 : List Char} (hlen : r3.length < 8)
    (hhead : r3.take 1 ≠ ['/'])
    (hns : ∀ x ∈ r3, (whitespace ++ ['/', '>']).contains x = false) :
    parseDispatch recurse nodes2 r3 = .error .eof := by
  have hcd : r3.take 8 ≠ cdataOpen := by
    intro heq
    have := congrArg List.length heq
    simp only [List.length_take, cdataOpen, List.length_cons, List.length_nil] at this
    omega
  rw [parseDispatch, if_neg hcd, if_neg hhead]
  rw [matchNodeStartTag_nostop_err hns]

theorem parseDispatch_no_fuelErr {recurse : List XMLNode → List Char → Except PErr XMLNode}
    {nodes2 : List XMLNode} {r3 : List Char}
    (hrec : ∀ ns inp, inp.length ≤ r3.length → recurse ns inp ≠ .error .fuelExhausted) :
    parseDispatch recurse nodes2 r3 ≠ .error .fuelExhausted := by
  rw [parseDispatch]
  by_cases hcd : r3.take 8 = cdataOpen
  · rw [if_pos hcd]
    cases hct : matchCDataText (r3.drop 8) with
    | error e =>
      dsimp only
      rw [matchCDataText] at hct
      exact errNe (by rw [matchUntilString_err hct]; simp)
    | ok p =>
      obtain ⟨text, r4⟩ := p
      dsimp only
      cases hat : appendTextTop nodes2 (String.mk text) with
      | error e =>
        dsimp only
        exact errNe (by rw [appendTextTop_err hat]; simp)
      | ok nodes4 =>
        dsimp only
        apply hrec
        rw [matchCDataText] at hct
        have := congrArg List.length (matchUntilString_ok hct)
        simp only [List.length_append, List.length_drop] at this
        omega
  · rw [if_neg hcd]
    by_cases hsl : r3.take 1 = ['/']
    · rw [if_pos hsl]
      cases het : matchNodeEndTag nodes2 (r3.drop 1) with
      | error e =>
        dsimp only
        exact errNe (matchNodeEndTag_err het)
      | ok p =>
        obtain ⟨node, r5, nodes5⟩ := p
        dsimp only
        by_cases hni : nodes5.isEmpty
        · simp [hni]
        · simp only [hni, Bool.false_eq_true, if_neg, not_false_eq_true]
          apply hrec
          have := (matchNodeEndTag_facts het).1
          simp only [List.length_drop] at this
          omega
    · rw [if_neg hsl]
      cases hst : matchNodeStartTag r3 nodes2 with
      | error e =>
        dsimp only
        exact errNe (matchNodeStartTag_err hst)
      | ok p =>
        obtain ⟨r5, nodes5⟩ := p
        dsimp only
        apply hrec
        have := (matchNodeStartTag_facts hst).1
        omega

theorem parseDispatch_append {recurse recurse' : List XMLNode → List Char → Except PErr XMLNode}
    {nodes2 : List XMLNode} {r3 t : List Char} {root : XMLNode}
    (h : parseDispatch recurse nodes2 r3 = .ok root)
    (hrec : ∀ ns inp rt, recurse ns inp = .ok rt → recurse' ns (inp ++ t) = .ok rt) :
    parseDispatch recurse' nodes2 (r3 ++ t) = .ok root := by
  rw [parseDispatch] at h
  by_cases hcd : r3.take 8 = cdataOpen
  · have hlen : 8 ≤ r3.length := by
      have := congrArg List.length hcd
      simp only [List.length_take, cdataOpen, List.length_cons, List.length_nil] at this
      omega
    have hcd' : (r3 ++ t).take 8 = cdataOpen := by
      rw [List.take_append_of_le_length hlen]; exact hcd
    rw [if_pos hcd] at h
    rw [parseDispatch, if_pos hcd']
    cases hct : matchCDataText (r3.drop 8) with
    | error e => rw [hct] at h; simp at h
    | ok p =>
      obtain ⟨text, r4⟩ := p
      rw [hct] at h
      dsimp only at h
      rw [matchCDataText] at hct
      have happ := matchUntilString_append (t := t) hct
      rw [List.drop_append_of_le_length hlen, matchCDataText, happ]
      dsimp only
      cases hat : appendTextTop nodes2 (String.mk text) with
      | error e => rw [hat] at h; simp at h
      | ok nodes4 =>
        rw [hat] at h
        dsimp only at h
        exact hrec _ _ _ h
  · rw [if_neg hcd] at h
    by_cases hsl : r3.take 1 = ['/']
    · obtain ⟨rr, rfl⟩ : ∃ rr, r3 = '/' :: rr := by
        cases r3 with
        | nil => simp at hsl
        | cons a rr =>
          obtain rfl : a = '/' := by simpa using hsl
          exact ⟨rr, rfl⟩
      have hcd' : (('/' :: rr) ++ t).take 8 ≠ cdataOpen := by
        rw [List.cons_append]
        intro heq
        rw [show (8 : Nat) = 7 + 1 from rfl, List.take_succ_cons] at heq
        have := (List.cons.inj heq).1
        simp [cdataOpen] at heq
      have hsl' : (('/' :: rr) ++ t).take 1 = ['/'] := rfl
      rw [if_pos hsl] at h
      rw [parseDispatch, if_neg hcd', if_pos hsl']
      cases het : matchNodeEndTag nodes2 (('/' :: rr).drop 1) with
      | error e => rw [het] at h; simp at h
      | ok p =>
        obtain ⟨node, r5, nodes5⟩ := p
        rw [het] at h
        dsimp only at h
        have happ := (matchNodeEndTag_facts het).2 t
        have hdr : (('/' :: rr) ++ t).drop 1 = ('/' :: rr).drop 1 ++ t := rfl
        rw [hdr, happ]
        dsimp only
        by_cases hni : nodes5.isEmpty
        · simp only [hni, if_pos] at h ⊢
          exact h
        · simp only [hni, Bool.false_eq_true, if_neg, not_false_eq_true] at h ⊢
          exact hrec _ _ _ h
    · rw [if_neg hsl] at h
      by_cases hcd' : (r3 ++ t).take 8 = cdataOpen
      · exfalso
        have hlen : r3.length < 8 := by
          by_contra hge
          push_neg at hge
          rw [List.take_append_of_le_length hge] at hcd'
          exact hcd hcd'
        have htk : r3.take 8 = r3 := List.take_of_length_le (by omega)
        have hpre : r3 ++ t.take (8 - r3.length) = cdataOpen := by
          rw [List.take_append_eq_append_take, htk] at hcd'
          exact hcd'
        have hns : ∀ x ∈ r3, (whitespace ++ ['/', '>']).contains x = false := by
          have hall : ∀ x ∈ cdataOpen, (whitespace ++ ['/', '>']).contains x = false := by decide
          intro x hx
          exact hall x (by rw [← hpre]; exact List.mem_append_left _ hx)
        rw [matchNodeStartTag_nostop_err hns] at h
        simp at h
      · by_cases hsl' : (r3 ++ t).take 1 = ['/']
        · exfalso
          have hr3 : r3 = [] := by
            cases r3 with
            | nil => rfl
            | cons a rr =>
              rw [List.cons_append] at hsl'
              obtain rfl : a = '/' := by simpa using hsl'
              simp at hsl
          subst hr3
          rw [matchNodeStartTag_nostop_err (by simp)] at h
          simp at h
        · rw [parseDispatch, if_neg hcd', if_neg hsl']
          cases hst : matchNodeStartTag r3 nodes2 with
          | error e => rw [hst] at h; simp at h
          | ok p =>
            obtain ⟨r5, nodes5⟩ := p
            rw [hst] at h
            dsimp only at h
            rw [(matchNodeStartTag_facts hst).2 t]
            dsimp only
            exact hrec _ _ _ h

theorem parseLoopTail_no_fuelErr {recurse : List XMLNode → List Char → Except PErr XMLNode}
    {nodes2 : List XMLNode} {r2 : List Char}
    (hrec : ∀ ns inp, inp.length ≤ r2.length → recurse ns inp ≠ .error .fuelExhausted) :
    parseLoopTail recurse nodes2 r2 ≠ .error .fuelExhausted := by
  rw [parseLoopTail]
  by_cases hcm : r2.take 3 = ['!', '-', '-']
  · rw [if_pos hcm]
    cases hce : matchCommentEnd (r2.drop 3) with
    | error e =>
      dsimp only
      exact errNe (by rw [matchCommentEnd_err hce]; simp)
    | ok r3 =>
      dsimp only
      apply parseDispatch_no_fuelErr
      intro ns inp hle
      apply hrec
      have := matchCommentEnd_ok_len hce
      simp only [List.length_drop] at this
      omega
  · rw [if_neg hcm]
    dsimp only
    exact parseDispatch_no_fuelErr hrec

theorem parseLoopTail_append {recurse recurse' : List XMLNode → List Char → Except PErr XMLNode}
    {nodes2 : List XMLNode} {r2 t : List Char} {root : XMLNode}
    (h : parseLoopTail recurse nodes2 r2 = .ok root)
    (hrec : ∀ ns inp rt, recurse ns inp = .ok rt → recurse' ns (inp ++ t) = .ok rt) :
    parseLoopTail recurse' nodes2 (r2 ++ t) = .ok root := by
  rw [parseLoopTail] at h
  rw [parseLoopTail]
  by_cases hcm : r2.take 3 = ['!', '-', '-']
  · have hlen : 3 ≤ r2.length := by
      have := congrArg List.length hcm
      simp only [List.length_take, List.length_cons, List.length_nil] at this
      omega
    have hcm' : (r2 ++ t).take 3 = ['!', '-', '-'] := by
      rw [List.take_append_of_le_length hlen]; exact hcm
    rw [if_pos hcm] at h
    rw [if_pos hcm']
    cases hce : matchCommentEnd (r2.drop 3) with
    | error e => rw [hce] at h; simp at h
    | ok r3 =>
      rw [hce] at h
      dsimp only at h
      rw [List.drop_append_of_le_length hlen, matchCommentEnd_append hce]
      dsimp only
      exact parseDispatch_append h hrec
  · by_cases hcm' : (r2 ++ t).take 3 = ['!', '-', '-']
    · exfalso
      rw [if_neg hcm] at h
      dsimp only at h
      have hlen : r2.length < 3 := by
        by_contra hge
        push_neg at hge
        rw [List.take_append_of_le_length hge] at hcm'
        exact hcm hcm'
      have htk : r2.take 3 = r2 := List.take_of_length_le (by omega)
      have hpre : r2 ++ t.take (3 - r2.length) = ['!', '-', '-'] := by
        rw [List.take_append_eq_append_take, htk] at hcm'
        exact hcm'
      have hns : ∀ x ∈ r2, (whitespace ++ ['/', '>']).contains x = false := by
        have hall : ∀ x ∈ ['!', '-', '-'], (whitespace ++ ['/', '>']).contains x = false := by decide
        intro x hx
        exact hall x (by rw [← hpre]; exact List.mem_append_left _ hx)
      have hhead : r2.take 1 ≠ ['/'] := by
        cases r2 with
        | nil => simp
        | cons a rr =>
          rw [List.cons_append] at hpre
          obtain rfl : a = '!' := (List.cons.inj hpre).1
          simp
      rw [parseDispatch_nostop_err (by omega) hhead hns] at h
      simp at h
    · rw [if_neg hcm] at h
      dsimp only at h
      rw [if_neg hcm']
      dsimp only
      exact parseDispatch_append h hrec

theorem parseLoop_no_fuelErr {fuel : Nat} :
    ∀ {nodes : List XMLNode} {input : List Char}, input.length < fuel →
      parseLoop fuel nodes input ≠ .error .fuelExhausted := by
  induction fuel with
  | zero => intro nodes input hlen; omega
  | succ fuel ih =>
    intro nodes input hlen
    rw [parseLoop]
    cases input with
    | nil => rw [getChar]; simp
    | cons char r1 =>
      rw [getChar]
      dsimp only
      simp only [List.length_cons] at hlen
      by_cases hw : isWhitespace char
      · simp only [hw, if_pos]
        exact ih (by omega)
      · simp only [hw, Bool.false_eq_true, if_neg, not_false_eq_true]
        by_cases hne : char ≠ '<'
        · rw [if_pos hne]
          cases hts : matchTextStep nodes char r1 with
          | error e =>
            dsimp only
            exact errNe (matchTextStep_err hts)
          | ok p =>
            obtain ⟨nodes2, r2⟩ := p
            dsimp only
            apply parseLoopTail_no_fuelErr
            intro ns inp hle
            have hr2 := (matchTextStep_facts hts).1
            exact ih (by omega)
        · rw [if_neg hne]
          dsimp only
          apply parseLoopTail_no_fuelErr
          intro ns inp hle
          exact ih (by omega)

theorem parseLoop_append {t : List Char} {fuel : Nat} :
    ∀ {nodes : List XMLNode} {input : List Char} {root : XMLNode},
      parseLoop fuel nodes input = .ok root →
      ∀ fuel', fuel ≤ fuel' → parseLoop fuel' nodes (input ++ t) = .ok root := by
  induction fuel with
  | zero => intro nodes input root h fuel' hf; rw [parseLoop] at h; simp at h
  | succ fuel ih =>
    intro nodes input root h fuel' hf
    obtain ⟨f2, rfl⟩ : ∃ f2, fuel' = f2 + 1 := ⟨fuel' - 1, by omega⟩
    have hf2 : fuel ≤ f2 := by omega
    rw [parseLoop] at h
    rw [parseLoop]
    cases input with
    | nil => rw [getChar] at h; simp at h
    | cons char r1 =>
      rw [getChar] at h
      dsimp only at h
      rw [List.cons_append, getChar]
      dsimp only
      by_cases hw : isWhitespace char
      · simp only [hw, if_pos] at h ⊢
        exact ih h f2 hf2
      · simp only [hw, Bool.false_eq_true, if_neg, not_false_eq_true] at h ⊢
        by_cases hne : char ≠ '<'
        · rw [if_pos hne] at h ⊢
          cases hts : matchTextStep nodes char r1 with
          | error e => rw [hts] at h; simp at h
          | ok p =>
            obtain ⟨nodes2, r2⟩ := p
            rw [hts] at h
            dsimp only at h
            rw [(matchTextStep_facts hts).2 t]
            dsimp only
            exact parseLoopTail_append h (fun ns inp rt h0 => ih h0 f2 hf2)
        · rw [if_neg hne] at h ⊢
          dsimp only at h
          dsimp only
          exact parseLoopTail_append h (fun ns inp rt h0 => ih h0 f2 hf2)

/-! ### Claim theorems -/

/-- C1: parsing `<a><b>hi</b><c x="1"/></a>` succeeds and returns a root
node with tag `a`, no attributes, and exactly two children in order: `b`
with a single text child carrying `hi`, and `c` with no children and the
single attribute `x = "1"`. -/
theorem claim_c1 :
    parseXML "<a><b>hi</b><c x=\"1\"/></a>" =
      .ok (.mk "a" [] [.mk "b" [] [textNode "hi"], .mk "c" [("x", "1")] []]) := rfl

/-- C2: for every input string, `validateXML` returns a boolean (it is a
total `Bool`-valued function, so no exception can escape), and it returns
`true` exactly when parsing the same string completes without an error. -/
theorem claim_c2 (s : String) :
    (validateXML s = true ∨ validateXML s = false) ∧
      (validateXML s = true ↔ ∃ node, parseXML s = .ok node) := by
  refine ⟨by cases validateXML s <;> simp, ?_⟩
  rw [validateXML]
  cases hp : parseXML s with
  | ok node => simp
  | error e => simp

/-- C3 is falsified by the code: `<a></a>` validates, but building its
parse result yields `<a/>\n` (self-closing root), which the parser rejects
with an EOF error, so `validateXML (buildXML (parseXML x))` is `false` for
the valid input `x = "<a></a>"`. -/
theorem claim_c3 :
    validateXML "<a></a>" = true ∧
      parseXML "<a></a>" = .ok (.mk "a" [] []) ∧
      buildXML (.mk "a" [] []) {} = "<a/>\n" ∧
      validateXML (buildXML (.mk "a" [] []) {}) = false :=
  ⟨rfl, rfl, rfl, rfl⟩

/-- C4 is falsified by the code: `<a></a>` parses to the childless,
attribute-less node `a`, but the whole-document input `<a/>` does not parse
at all — after the self-closing root is popped the loop calls `getChar` at
the end of input and throws `Unexpected EOF` (parse only returns from the
closing-tag branch). -/
theorem claim_c4 :
    parseXML "<a></a>" = .ok (.mk "a" [] []) ∧ parseXML "<a/>" = .error .eof :=
  ⟨rfl, rfl⟩

/-- C5 is falsified by the code: after consuming a comment the loop does
not re-enter at the top, so the `<` of the following tag is swallowed into
the tag name: `<a><!-- comment --><b/></a>` parses to root `a` whose only
child has tag `<b`, not `b`. -/
theorem claim_c5 :
    parseXML "<a><!-- comment --><b/></a>" = .ok (.mk "a" [] [.mk "<b" [] []]) := rfl

/-- C6 counterexample: the input `<a></a>x` has non-whitespace trailing
content after the root's closing tag, yet `parseXML` succeeds (returning
root `a`), contradicting the claim that such inputs always fail. -/
theorem claim_c6_counterexample : parseXML "<a></a>x" = .ok (.mk "a" [] []) := rfl

/-- C6 amended: `parseXML` returns as soon as the root element's closing
tag is matched and never looks at what follows: appending arbitrary
trailing content to a successfully parsed document leaves the result
unchanged (trailing content is ignored, not rejected). -/
theorem claim_c6_amended (s t : String) (root : XMLNode)
    (h : parseXML s = .ok root) : parseXML (s ++ t) = .ok root := by
  rw [parseXML] at h
  rw [parseXML]
  have hdata : (s ++ t).toList = s.toList ++ t.toList := by simp [String.toList]
  rw [hdata]
  apply parseLoop_append h
  rw [String.length_append]
  omega

/-- Witness for the C6 amended theorem at a concrete input. -/
theorem claim_c6_witness : parseXML ("<a></a>" ++ "x") = .ok (.mk "a" [] []) :=
  claim_c6_amended "<a></a>" "x" (.mk "a" [] []) rfl

/-- C7 is falsified by the code: `XMLBuilder.build` emits the self-close
marker for every childless node regardless of the `enableSelfClosingTags`
option — the option is stored by the constructor but never read — so the
output is `<a/>\n` both with the default (`true`) and with the option
explicitly `false`. -/
theorem claim_c7 :
    buildXML (.mk "a" [] []) {} = "<a/>\n" ∧
      buildXML (.mk "a" [] []) { enableSelfClosingTags := false } = "<a/>\n" :=
  ⟨rfl, rfl⟩

/-- C8: `parseXML` (and hence `validateXML`) terminates on every finite
input: the scan is bounded by the input length, so the fuel
`s.length + 1` is never exhausted, and `validateXML` always returns one of
the two booleans. -/
theorem claim_c8 (s : String) :
    parseXML s ≠ .error .fuelExhausted ∧
      (validateXML s = true ∨ validateXML s = false) := by
  refine ⟨?_, by cases validateXML s <;> simp⟩
  rw [parseXML]
  apply parseLoop_no_fuelErr
  show s.toList.length < s.length + 1
  have hlen : s.toList.length = s.length := rfl
  omega

/-- C9 is falsified by the code: `innerText` filters the direct `@text`
children but then calls `Array.prototype.join(' ')` on the node objects
themselves instead of their `data` values, so each text child contributes
the string `[object Object]` (separated by spaces), not its text content
(`"hi"`/`"yo"` here). -/
theorem claim_c9 :
    XMLNode.innerText
        (.mk "p" [] [textNode "hi", .mk "b" [] [textNode "deep"], textNode "yo"]) =
      "[object Object] [object Object]" := rfl

/-- C10: inside a start tag, `matchAttribute` consumes and silently
discards every character between the attribute key and the `=` sign (`j1`)
and every character between `=` and the first quote character (`j2`),
returning the mapping from the key to the quoted value; e.g.
`key junk = junk2 "v"` yields `key -> "v"` with no error. -/
theorem claim_c10 (key j1 j2 v rest : List Char) (q : Char)
    (hkey : ∀ c ∈ key, (whitespace ++ ['=']).contains c = false)
    (hj1head : j1 = [] ∨ ∃ d t0, j1 = d :: t0 ∧ isWhitespace d = true)
    (hj1eq : ∀ c ∈ j1, (['='] : List Char).contains c = false)
    (hj2 : ∀ c ∈ j2, (['"', squote] : List Char).contains c = false)
    (hq : (['"', squote] : List Char).contains q = true)
    (hv : ∀ c ∈ v, ([q] : List Char).contains c = false) :
    matchAttribute (key ++ (j1 ++ ('=' :: (j2 ++ (q :: (v ++ (q :: rest))))))) =
      .ok ((String.mk key, String.mk v), rest) := by
  have h1 : matchUntilChar (whitespace ++ ['='])
      (key ++ (j1 ++ ('=' :: (j2 ++ (q :: (v ++ (q :: rest))))))) =
      .ok (key, j1 ++ ('=' :: (j2 ++ (q :: (v ++ (q :: rest)))))) := by
    rcases hj1head with rfl | ⟨d, t0, rfl, hws⟩
    · simp only [List.nil_append]
      exact matchUntilChar_of_split hkey (by decide)
    · have hd : (whitespace ++ ['=']).contains d = true := by
        have hdm : d ∈ whitespace := by simpa [isWhitespace] using hws
        simp [List.mem_append, hdm]
      have heq : key ++ ((d :: t0) ++ ('=' :: (j2 ++ (q :: (v ++ (q :: rest)))))) =
          key ++ (d :: (t0 ++ ('=' :: (j2 ++ (q :: (v ++ (q :: rest))))))) := by simp
      rw [heq, matchUntilChar_of_split hkey hd]
      simp
  have h2 : matchUntilChar ['='] (j1 ++ ('=' :: (j2 ++ (q :: (v ++ (q :: rest)))))) =
      .ok (j1, '=' :: (j2 ++ (q :: (v ++ (q :: rest))))) :=
    matchUntilChar_of_split hj1eq (by decide)
  have h3 : matchUntilChar ['"', squote] (j2 ++ (q :: (v ++ (q :: rest)))) =
      .ok (j2, q :: (v ++ (q :: rest))) :=
    matchUntilChar_of_split hj2 hq
  have h4 : matchUntilChar [q] (v ++ (q :: rest)) = .ok (v, q :: rest) :=
    matchUntilChar_of_split hv (by simp)
  rw [matchAttribute, h1]
  dsimp only
  rw [h2]
  dsimp only
  rw [show List.drop 1 ('=' :: (j2 ++ (q :: (v ++ (q :: rest))))) =
      j2 ++ (q :: (v ++ (q :: rest))) from rfl]
  rw [h3]
  dsimp only
  rw [show List.take 1 (q :: (v ++ (q :: rest))) = [q] from rfl]
  rw [show List.drop 1 (q :: (v ++ (q :: rest))) = v ++ (q :: rest) from rfl]
  rw [h4]
  dsimp only
  rw [show List.drop 1 (q :: rest) = rest from rfl]

/-- Witness for C10 at the concrete attribute text `key junk = junk2 "v"`
followed by `></a>`. -/
theorem claim_c10_witness :
    matchAttribute ("key".toList ++ (" junk ".toList ++ ('=' ::
        (" junk2 ".toList ++ ('"' :: ("v".toList ++ ('"' :: "></a>".toList))))))) =
      .ok (("key", "v"), "></a>".toList) :=
  claim_c10 "key".toList " junk ".toList " junk2 ".toList "v".toList "></a>".toList '"'
    (by decide) (Or.inr ⟨' ', "junk ".toList, by decide, by decide⟩)
    (by decide) (by decide) (by decide) (by decide)
